import Mathlib

/-!
Verification of the quantumsim circuit module (`circuit.py`).

This file gives a shallow embedding in Lean 4 of the data model and the
operations of `circuit.py`: the sampler coroutines (`selection_sampler`,
`uniform_sampler`, `uniform_noisy_sampler`), the `Measurement` gate and its
replay against an external state object (`sdm`), and the `Circuit`
orchestration functions (`add_gate`, `add_waiting_gates`, `order`).

Modelling conventions:
- Timestamps and probabilities are rationals (`ℚ`); the source treats them
  as real numbers and none of the verified properties depends on
  floating-point rounding.
- A Python generator-based sampler is modelled as a state machine: the
  value of `Sampler` is the sampler after priming (`next(sampler)` in
  `Measurement.__init__` runs the generator to its first `yield` and is a
  no-op in this model), and `Sampler.send` is one resumption.
- `np.random.RandomState(seed)` is external to the repository; it is
  modelled as a deterministic stream of rationals in `[0, 1)` determined by
  the seed (`randomStateStream`), consumed one value per `random_sample()`
  call via an explicit cursor.  The only property used is the one the spec
  states: the stream is reproducible given the seed.
- The external density-matrix object `sdm` is modelled as a record holding
  the non-mutating peek query `peak_measurement`, a log of irreversible
  projections, and the running `classical_probability` accumulator.
-/

namespace Quantumsim

/-- Model of `np.random.RandomState(seed).random_sample()`: a seeded
reproducible stream of values in `[0, 1)`.  The concrete mixing formula is
irrelevant; only determinism in the seed matters, as the spec states. -/
def randomStateStream (seed : ℕ) : ℕ → ℚ :=
  fun n =>
    (((seed + 1) * 6364136223846793005 + n * 1442695040888963407) %
      18446744073709551616 : ℕ) / (18446744073709551616 : ℚ)

/-- The three sampler coroutines of `circuit.py`, after priming.
`selection` is `selection_sampler`, `uniform` is `uniform_sampler` (stream
plus cursor of consumed draws), `uniformNoisy` is `uniform_noisy_sampler`. -/
inductive Sampler where
  | selection (result : ℕ)
  | uniform (stream : ℕ → ℚ) (cursor : ℕ)
  | uniformNoisy (readout_error : ℚ) (stream : ℕ → ℚ) (cursor : ℕ)

/-- One resumption of the sampler generator: `sampler.send((p0, p1))`.
Returns the yielded triple, in exactly the source's yield order, and the
sampler's next state.

- `selection_sampler`: `yield result, result, 1`.
- `uniform_sampler`: draw `r`; `yield 0, 0, 1` if `r < p0/(p0+p1)` else
  `yield 1, 1, 1`.
- `uniform_noisy_sampler`: draw `r`, set `proj`; draw again, set
  `decl`/`prob`; `yield proj, decl, prob`  (note: the true outcome first,
  which is the source's order, not the documented protocol order). -/
def Sampler.send : Sampler → ℚ × ℚ → (ℕ × ℕ × ℚ) × Sampler
  | .selection result, _ => ((result, result, 1), .selection result)
  | .uniform stream cursor, p =>
      let r := stream cursor
      if r < p.1 / (p.1 + p.2) then ((0, 0, 1), .uniform stream (cursor + 1))
      else ((1, 1, 1), .uniform stream (cursor + 1))
  | .uniformNoisy readout_error stream cursor, p =>
      let r := stream cursor
      let proj : ℕ := if r < p.1 / (p.1 + p.2) then 0 else 1
      let r2 := stream (cursor + 1)
      if r2 < readout_error then
        ((proj, 1 - proj, readout_error), .uniformNoisy readout_error stream (cursor + 2))
      else
        ((proj, proj, 1 - readout_error), .uniformNoisy readout_error stream (cursor + 2))

/-- `selection_sampler(result=0)` (already primed). -/
def selection_sampler (result : ℕ := 0) : Sampler := .selection result

/-- `uniform_sampler(seed=42)` (already primed, no draws consumed yet). -/
def uniform_sampler (seed : ℕ := 42) : Sampler := .uniform (randomStateStream seed) 0

/-- `uniform_noisy_sampler(readout_error, seed=42)` (already primed). -/
def uniform_noisy_sampler (readout_error : ℚ) (seed : ℕ := 42) : Sampler :=
  .uniformNoisy readout_error (randomStateStream seed) 0

/-- Drive a sampler through a sequence of `(p0, p1)` inputs, collecting the
yielded triples in order. -/
def runSampler (s : Sampler) : List (ℚ × ℚ) → List (ℕ × ℕ × ℚ)
  | [] => []
  | p :: ps => (s.send p).1 :: runSampler (s.send p).2 ps

/-- The external density-matrix object, reduced to the interface
`Measurement.apply_to` uses: `peak_measurement` (non-mutating peek),
`project_measurement` (logged below), `classical_probability`. -/
structure Sdm where
  peak_measurement : String → ℚ × ℚ
  projections : List (String × ℕ)
  classical_probability : ℚ

/-- `sdm.project_measurement(bit, outcome)`: irreversible projection,
modelled as appending to the projection log. -/
def Sdm.project_measurement (s : Sdm) (bit : String) (outcome : ℕ) : Sdm :=
  { s with projections := s.projections ++ [(bit, outcome)] }

/-- The `Measurement` gate: involved qubit, timestamp, sampler object and
the accumulated list of declared outcomes (`self.measurements`). -/
structure Measurement where
  bit : String
  time : ℚ
  sampler : Sampler
  measurements : List ℕ

/-- `Measurement.__init__(bit, time, sampler)`: if `sampler` is `None`, a
`uniform_sampler()` with the default seed 42 is installed; `next(sampler)`
(priming) is a no-op in this model; `self.measurements = []`. -/
def Measurement.init (bit : String) (time : ℚ) (sampler : Option Sampler) : Measurement :=
  match sampler with
  | some s => { bit := bit, time := time, sampler := s, measurements := [] }
  | none => { bit := bit, time := time, sampler := uniform_sampler, measurements := [] }

/-- `Measurement.apply_to(sdm)`:
```
bit = self.involved_qubits[0]
p0, p1 = sdm.peak_measurement(bit)
declare, project, cond_prob = self.sampler.send((p0, p1))
self.measurements.append(declare)
sdm.project_measurement(bit, project)
sdm.classical_probability *= cond_prob
```
returning the updated gate and the updated state. -/
def Measurement.apply_to (m : Measurement) (sdm : Sdm) : Measurement × Sdm :=
  let bit := m.bit
  let pp := sdm.peak_measurement bit
  let r := m.sampler.send pp
  let declare := r.1.1
  let project := r.1.2.1
  let cond_prob := r.1.2.2
  let m' := { m with measurements := m.measurements ++ [declare], sampler := r.2 }
  let sdm' := sdm.project_measurement bit project
  (m', { sdm' with classical_probability := sdm'.classical_probability * cond_prob })

/-- Drive a measurement gate through a sequence of peeks: each element of
`peeks` is what `sdm.peak_measurement` returns at that step. -/
def runMeasurement (m : Measurement) : List (ℚ × ℚ) → Measurement
  | [] => m
  | p :: ps =>
      runMeasurement
        (m.apply_to
          { peak_measurement := fun _ => p, projections := [],
            classical_probability := 1 }).1 ps

/-- A concrete random stream used for counterexamples and witnesses: every
draw is `0`. -/
def cexStream : ℕ → ℚ := fun _ => 0

/-- A concrete external state whose peek always reports `(1, 0)`. -/
def cexSdm : Sdm :=
  { peak_measurement := fun _ => (1, 0), projections := [], classical_probability := 1 }

end Quantumsim

namespace Quantumsim

/-- A coherence profile (`Qubit`): unique name and relaxation/dephasing
times. -/
structure Qubit where
  name : String
  t1 : ℚ
  t2 : ℚ

/-- `Qubit.__init__(name, t1, t2)`: non-positive coherence times are
silently clamped to `1e-10`. -/
def Qubit.init (name : String) (t1 t2 : ℚ) : Qubit :=
  { name := name, t1 := max t1 (1 / 10000000000), t2 := max t2 (1 / 10000000000) }

/-- The gate variants of `circuit.py`.  `ampPhDamp` stores its constructor
arguments `(duration, t1, t2)`; the damping parameters
`gamma = 1 - exp(-duration/t1)`, `lamda = 1 - exp(-duration/t2)` are a
fixed function of these and are not needed by any verified property.
`measurement` stores the sampler object and the accumulated declared
outcomes. -/
inductive GateKind where
  | hadamard
  | cphase
  | ampPhDamp (duration : ℚ) (t1 : ℚ) (t2 : ℚ)
  | measurement (sampler : Sampler) (measurements : List ℕ)

/-- A `Gate` of the circuit: kind, timestamp, ordered involved-qubit names
and the optional display annotation. -/
structure CGate where
  kind : GateKind
  time : ℚ
  involved_qubits : List String
  annotation : Option String

instance : Inhabited CGate :=
  ⟨{ kind := .hadamard, time := 0, involved_qubits := [], annotation := none }⟩

/-- `self.is_measurement` (set to `True` only by `Measurement.__init__`). -/
def CGate.is_measurement (g : CGate) : Bool :=
  match g.kind with
  | .measurement _ _ => true
  | _ => false

/-- `Gate.involves_qubit(bit)`: membership in `self.involved_qubits`. -/
def CGate.involves_qubit (g : CGate) (bit : String) : Bool :=
  g.involved_qubits.contains bit

/-- `Hadamard(bit, time)`. -/
def Hadamard (bit : String) (time : ℚ) : CGate :=
  { kind := .hadamard, time := time, involved_qubits := [bit], annotation := none }

/-- `CPhase(bit0, bit1, time)`. -/
def CPhase (bit0 bit1 : String) (time : ℚ) : CGate :=
  { kind := .cphase, time := time, involved_qubits := [bit0, bit1], annotation := none }

/-- `AmpPhDamp(bit, time, duration, t1, t2)`. -/
def AmpPhDamp (bit : String) (time duration t1 t2 : ℚ) : CGate :=
  { kind := .ampPhDamp duration t1 t2, time := time, involved_qubits := [bit],
    annotation := none }

/-- `Measurement(bit, time, sampler)` seen as a circuit gate (same
construction as `Measurement.init`: a missing sampler defaults to
`uniform_sampler()` with seed 42). -/
def MeasurementGate (bit : String) (time : ℚ) (sampler : Option Sampler) : CGate :=
  { kind := .measurement (sampler.getD uniform_sampler) [], time := time,
    involved_qubits := [bit], annotation := none }

/-- The `Circuit`: title, insertion-ordered qubits, mutable gate list. -/
structure Circuit where
  title : String
  qubits : List Qubit
  gates : List CGate

/-- `Circuit.__init__(title="Unnamed circuit")`. -/
def Circuit.init (title : String := "Unnamed circuit") : Circuit :=
  { title := title, qubits := [], gates := [] }

/-- `Circuit.add_qubit(qubit)` (the variant taking a ready instance). -/
def Circuit.add_qubit (c : Circuit) (q : Qubit) : Circuit :=
  { c with qubits := c.qubits ++ [q] }

/-- `Circuit.add_gate(gate)` (the variant taking a ready `Gate` instance):
appends the gate. -/
def Circuit.add_gate (c : Circuit) (g : CGate) : Circuit :=
  { c with gates := c.gates ++ [g] }

/-- The Python exceptions the string-dispatch path of `add_gate` can
surface.  `keyError` is what `Circuit.gate_classes[gate_type]` raises for a
missing key; `typeError` is a constructor applied to ill-shaped arguments;
`configurationError` is the error class named by the spec — no such class
exists anywhere in the source. -/
inductive PyError where
  | keyError (key : String)
  | typeError
  | configurationError
deriving DecidableEq

/-- The Python `*args` actually accepted by the four registered gate
constructors. -/
inductive GateArgs where
  | oneQ (bit : String) (time : ℚ)
  | twoQ (bit0 bit1 : String) (time : ℚ)
  | damp (bit : String) (time duration t1 t2 : ℚ)
  | meas (bit : String) (time : ℚ) (sampler : Option Sampler)

/-- `Circuit.gate_classes`: the string-keyed gate registry.  Each entry
maps the kind identifier to its constructor; a constructor given
ill-shaped arguments is `none` (a `TypeError` in Python). -/
def gate_classes : List (String × (GateArgs → Option CGate)) :=
  [("cphase", fun a => match a with
      | .twoQ bit0 bit1 time => some (CPhase bit0 bit1 time)
      | _ => none),
   ("hadamard", fun a => match a with
      | .oneQ bit time => some (Hadamard bit time)
      | _ => none),
   ("amp_ph_damping", fun a => match a with
      | .damp bit time duration t1 t2 => some (AmpPhDamp bit time duration t1 t2)
      | _ => none),
   ("measurement", fun a => match a with
      | .meas bit time sampler => some (MeasurementGate bit time sampler)
      | _ => none)]

/-- `Circuit.add_gate(gate_type, *args)` for a string `gate_type`:
`gate = Circuit.gate_classes[gate_type](*args)` then append.  The dict
lookup raises `KeyError` for an unknown identifier. -/
def Circuit.add_gate_by_name (c : Circuit) (gate_type : String) (args : GateArgs) :
    Except PyError Circuit :=
  match gate_classes.lookup gate_type with
  | none => .error (.keyError gate_type)
  | some ctor =>
      match ctor args with
      | none => .error .typeError
      | some g => .ok (c.add_gate g)

/-- The idle-gap threshold `1e-6` of `add_waiting_gates`. -/
def idleEps : ℚ := 1 / 1000000

/-- The comparator of `sorted(self.gates, key=lambda g: g.time)`. -/
def timeLe (a b : CGate) : Bool := decide (a.time ≤ b.time)

/-- The in-window filter of the per-qubit loop of `add_waiting_gates`:
`gate.involves_qubit(str(b)) and tmin <= gate.time <= tmax`. -/
def inWindow (b : Qubit) (tmin tmax : ℚ) (gate : CGate) : Bool :=
  gate.involves_qubit b.name && decide (tmin ≤ gate.time) && decide (gate.time ≤ tmax)

/-- The body of the per-qubit loop of `Circuit.add_waiting_gates`, in the
source's insertion order: the whole-window channel when the qubit has no
in-window gates, otherwise the leading-gap channel (when its gap exceeds
`1e-6`), then the trailing-gap channel (likewise), then one channel per
consecutive pair of the qubit's in-window gates.  `all_gates` is the
time-sorted snapshot taken before the loop. -/
def waitingGatesFor (b : Qubit) (tmin tmax : ℚ) (all_gates : List CGate) : List CGate :=
  let gts := all_gates.filter (inWindow b tmin tmax)
  if gts.isEmpty then
    [AmpPhDamp b.name ((tmax + tmin) / 2) (tmax - tmin) b.t1 b.t2]
  else
    (if gts.headI.time - tmin > idleEps then
        [AmpPhDamp b.name ((gts.headI.time + tmin) / 2) (gts.headI.time - tmin) b.t1 b.t2]
      else []) ++
    (if tmax - gts.getLastI.time > idleEps then
        [AmpPhDamp b.name ((gts.getLastI.time + tmax) / 2) (tmax - gts.getLastI.time) b.t1 b.t2]
      else []) ++
    (gts.zip gts.tail).map (fun p =>
      AmpPhDamp b.name ((p.1.time + p.2.time) / 2) (p.2.time - p.1.time) b.t1 b.t2)

/-- `Circuit.add_waiting_gates(tmin=None, tmax=None)`: sort a snapshot of
the gates by time; return unchanged if there are no gates and a window
bound is missing; default missing bounds to the first/last sorted
timestamp; then, qubit by qubit, append the idle-interval channels. -/
def Circuit.add_waiting_gates (c : Circuit) (tmin0 tmax0 : Option ℚ) : Circuit :=
  let all_gates := c.gates.mergeSort timeLe
  if all_gates.isEmpty ∧ (tmin0.isNone ∨ tmax0.isNone) then c
  else
    let tmin := tmin0.getD all_gates.headI.time
    let tmax := tmax0.getD all_gates.getLastI.time
    { c with
      gates := c.qubits.foldl (fun acc b => acc ++ waitingGatesFor b tmin tmax all_gates) c.gates }

/-- Claim-side definition for C4, written from the claim's words: for one
qubit, take the chronologically sorted timestamps of its operations inside
`[tmin, tmax]`; with no such operation, one channel centered at the window
midpoint with duration `tmax - tmin`; otherwise a channel over the initial
gap when `first - tmin > 1e-6` and over the final gap when
`tmax - last > 1e-6`, each centered at the gap midpoint with duration
equal to the gap, and one channel for every consecutive pair of
timestamps, centered at their midpoint with duration their difference. -/
def claimChannelsFor (b : Qubit) (tmin tmax : ℚ) (ops : List CGate) : List CGate :=
  let ts := ((ops.filter (inWindow b tmin tmax)).map CGate.time).mergeSort
    (fun x y => decide (x ≤ y))
  if ts.isEmpty then
    [AmpPhDamp b.name ((tmin + tmax) / 2) (tmax - tmin) b.t1 b.t2]
  else
    (if ts.headI - tmin > idleEps then
        [AmpPhDamp b.name ((tmin + ts.headI) / 2) (ts.headI - tmin) b.t1 b.t2]
      else []) ++
    (if tmax - ts.getLastI > idleEps then
        [AmpPhDamp b.name ((ts.getLastI + tmax) / 2) (tmax - ts.getLastI) b.t1 b.t2]
      else []) ++
    (ts.zip ts.tail).map (fun p =>
      AmpPhDamp b.name ((p.1 + p.2) / 2) (p.2 - p.1) b.t1 b.t2)

/-- The interval duration stored by a decoherence channel
(`self.duration`; 0 for gate kinds that have none). -/
def CGate.duration (g : CGate) : ℚ :=
  match g.kind with
  | .ampPhDamp d _ _ => d
  | _ => 0

/-- The time span a decoherence channel accounts for: centered at its
timestamp, extending half its duration to each side. -/
def intervalOf (g : CGate) : ℚ × ℚ :=
  (g.time - g.duration / 2, g.time + g.duration / 2)

/-- Interval `I` covers the gap `gap`: `I` starts no later than the gap and
ends no earlier. -/
def covers (I gap : ℚ × ℚ) : Prop := I.1 ≤ gap.1 ∧ gap.2 ≤ I.2

instance coversDecidable (I gap : ℚ × ℚ) : Decidable (covers I gap) :=
  inferInstanceAs (Decidable (I.1 ≤ gap.1 ∧ gap.2 ≤ I.2))

/-- Two intervals overlap when they share an interior point. -/
def overlaps (I J : ℚ × ℚ) : Prop := max I.1 J.1 < min I.2 J.2

/-- The consecutive pairs of a list of timestamps. -/
def pairsOf (l : List ℚ) : List (ℚ × ℚ) := l.zip l.tail

/-- The temporally adjacent pairs for one qubit inside a window: its
consecutive in-window operation timestamps, with the window boundaries as
additional endpoints. -/
def gapsOf (tmin tmax : ℚ) (ts : List ℚ) : List (ℚ × ℚ) :=
  pairsOf (tmin :: (ts ++ [tmax]))

/-- The spans of the channels `add_waiting_gates` synthesizes for one
qubit whose sorted in-window operation timestamps are `ts` (a verification
abstraction of `waitingGatesFor`). -/
def channelIntervals (tmin tmax : ℚ) (ts : List ℚ) : List (ℚ × ℚ) :=
  if ts.isEmpty then [(tmin, tmax)]
  else
    (if ts.headI - tmin > idleEps then [(tmin, ts.headI)] else []) ++
    (if tmax - ts.getLastI > idleEps then [(ts.getLastI, tmax)] else []) ++
    pairsOf ts

/-- Either way of being interval-disjoint: one interval ends before the
other starts. -/
def disjRel (I J : ℚ × ℚ) : Prop := I.2 ≤ J.1 ∨ J.2 ≤ I.1

/-- The per-qubit chronological chain of `Circuit.order`:
`gts = [n for n, gate in all_gates if gate.involves_qubit(str(b))]`. -/
def chainOf (all_gates : List (ℕ × CGate)) (name : String) : List ℕ :=
  (all_gates.filter (fun p => p.2.involves_qubit name)).map Prod.fst

/-- One chain of dependency edges:
`for g1, g2 in zip(gts[:-1], gts[1:]): dependencies[g2] |= {g1}`. -/
def addChainDeps (deps : List (Finset ℕ)) (gts : List ℕ) : List (Finset ℕ) :=
  (gts.zip gts.tail).foldl (fun d p => d.set p.2 ((d.getD p.2 ∅) ∪ {p.1})) deps

/-- `dependencies = {n: set() for n, gate in all_gates}` followed by the
per-qubit chain loop of `Circuit.order`; the dependency map is indexed by
gate index. -/
def buildDeps (qubits : List Qubit) (all_gates : List (ℕ × CGate)) : List (Finset ℕ) :=
  qubits.foldl (fun d b => addChainDeps d (chainOf all_gates b.name))
    (all_gates.map (fun _ => (∅ : Finset ℕ)))

/-- `Circuit.order()`, parameterized by the external scheduler
`tp.greedy_toposort` (declared out of scope by the spec; its contract
guarantees it returns a permutation of the gate indices): enumerate the
time-sorted gates, collect the measurement indices as the delay-preferred
set, build the per-qubit dependency chains, schedule, annotate each gate
with its final sequence index (`"%d" % n`) and replace the circuit's gate
collection with the gates in the returned order. -/
def Circuit.order (sched : List (Finset ℕ) → Finset ℕ → List ℕ) (c : Circuit) : Circuit :=
  let sorted_gates := c.gates.mergeSort timeLe
  let all_gates := sorted_gates.enum
  let measurements := (all_gates.filter (fun p => p.2.is_measurement)).map Prod.fst
  let dependencies := buildDeps c.qubits all_gates
  let ord := sched dependencies measurements.toFinset
  { c with
    gates := ord.enum.map (fun p =>
      { sorted_gates.getD p.2 default with annotation := some (toString p.1) }) }

/-- A concrete qubit used in witnesses. -/
def exQubit : Qubit := { name := "a", t1 := 1000, t2 := 1000 }

/-- A concrete circuit used in witnesses: one qubit, two gates on it. -/
def exCircuit : Circuit :=
  { title := "w", qubits := [exQubit], gates := [Hadamard "a" 0, Hadamard "a" 10] }

/-- C1 (code evaluation at the failing input): with `readout_error = 1/2`,
random draws `r1 = 0, r2 = 0` and relative probabilities `(p0, p1) = (1, 0)`,
the unbiased draw is outcome `0` (first conjunct), the flip branch is taken,
and `uniform_noisy_sampler` yields the triple `(0, 1, 1/2)` — the TRUE
outcome first and the flipped declaration second.  The documented sampler
protocol (`declare, project, rel_prob = sampler.send(...)`, the order
`Measurement.apply_to` unpacks) requires `(declared, projected, weight) =
(1, 0, 1/2)` here, so a measurement using this sampler records the true
outcome `0` as its declaration and projects the state onto the flipped
value `1` (last two conjuncts): the source yields `proj, decl, prob`
instead of `decl, proj, prob`. -/
theorem uniform_noisy_sampler_swaps_declared_and_projected :
    ((Sampler.uniform cexStream 0).send (1, 0)).1 = (0, 0, 1) ∧
    ((Sampler.uniformNoisy (1/2) cexStream 0).send (1, 0)).1 = (0, 1, 1/2) ∧
    (0, 1, (1/2 : ℚ)) ≠ ((1 : ℕ), (0 : ℕ), (1/2 : ℚ)) ∧
    ((Measurement.init "q" 0 (some (Sampler.uniformNoisy (1/2) cexStream 0))).apply_to
        cexSdm).1.measurements = [0] ∧
    ((Measurement.init "q" 0 (some (Sampler.uniformNoisy (1/2) cexStream 0))).apply_to
        cexSdm).2.projections = [("q", 1)] := by
  refine ⟨?_, ?_, by decide, ?_, ?_⟩ <;>
    norm_num [Sampler.send, cexStream, Measurement.init, Measurement.apply_to,
      Sdm.project_measurement, cexSdm]

/-- C2: `Measurement.apply_to(sdm)` performs exactly: a non-mutating peek
of `(p0, p1)` on its single involved qubit, one sampler invocation with
that pair yielding `(declared, projected, weight)`, appending the declared
outcome to the gate's outcome history, logging the irreversible projection
of the qubit onto the projected outcome, and multiplying the state's
running classical probability by the weight; nothing else changes. -/
theorem measurement_apply_to_contract (m : Measurement) (s : Sdm) :
    let out := m.sampler.send (s.peak_measurement m.bit)
    (m.apply_to s).1.bit = m.bit ∧
    (m.apply_to s).1.time = m.time ∧
    (m.apply_to s).1.measurements = m.measurements ++ [out.1.1] ∧
    (m.apply_to s).1.sampler = out.2 ∧
    (m.apply_to s).2.peak_measurement = s.peak_measurement ∧
    (m.apply_to s).2.projections = s.projections ++ [(m.bit, out.1.2.1)] ∧
    (m.apply_to s).2.classical_probability = s.classical_probability * out.1.2.2 :=
  ⟨rfl, rfl, rfl, rfl, rfl, rfl, rfl⟩

/-- C7: on input `(p0, p1)` with `p0 + p1 > 0`, `uniform_sampler` draws one
value `r` from its stream, selects outcome `0` if `r < p0/(p0+p1)` and `1`
otherwise, declares exactly the drawn outcome, returns weight `1`, and
advances its stream cursor by one. -/
theorem uniform_sampler_spec (stream : ℕ → ℚ) (cursor : ℕ) (p0 p1 : ℚ)
    (h : 0 < p0 + p1) :
    (Sampler.send (Sampler.uniform stream cursor) (p0, p1)).1.2.1
        = (if stream cursor < p0 / (p0 + p1) then 0 else 1) ∧
    (Sampler.send (Sampler.uniform stream cursor) (p0, p1)).1.1
        = (Sampler.send (Sampler.uniform stream cursor) (p0, p1)).1.2.1 ∧
    (Sampler.send (Sampler.uniform stream cursor) (p0, p1)).1.2.2 = 1 ∧
    (Sampler.send (Sampler.uniform stream cursor) (p0, p1)).2
        = .uniform stream (cursor + 1) := by
  simp only [Sampler.send]
  split <;> simp

/-- Witness for C7 at `stream = cexStream`, `cursor = 0`, `(p0, p1) = (1, 1)`. -/
theorem uniform_sampler_spec_witness :
    (0 : ℚ) < 1 + 1 ∧
    ((Sampler.send (Sampler.uniform cexStream 0) (1, 1)).1.2.1
        = (if cexStream 0 < 1 / (1 + 1) then 0 else 1) ∧
     (Sampler.send (Sampler.uniform cexStream 0) (1, 1)).1.1
        = (Sampler.send (Sampler.uniform cexStream 0) (1, 1)).1.2.1 ∧
     (Sampler.send (Sampler.uniform cexStream 0) (1, 1)).1.2.2 = 1 ∧
     (Sampler.send (Sampler.uniform cexStream 0) (1, 1)).2
        = .uniform cexStream (0 + 1)) :=
  ⟨by norm_num, uniform_sampler_spec cexStream 0 1 1 (by norm_num)⟩

/-- C8: two `uniform_sampler` instances constructed with equal seeds and
driven through equal sequences of `(p0, p1)` inputs yield equal sequences
of triples: the output is a function of the seed and the input sequence
alone. -/
theorem uniform_sampler_reproducible (seed1 seed2 : ℕ)
    (ins1 ins2 : List (ℚ × ℚ)) (hseed : seed1 = seed2) (hins : ins1 = ins2) :
    runSampler (uniform_sampler seed1) ins1 = runSampler (uniform_sampler seed2) ins2 := by
  subst hseed; subst hins; rfl

/-- Witness for C8: two fresh seed-42 samplers on the input sequence
`[(1, 1), (1, 3)]`. -/
theorem uniform_sampler_reproducible_witness :
    (42 : ℕ) = 42 ∧ ([((1 : ℚ), (1 : ℚ)), (1, 3)]) = ([((1 : ℚ), (1 : ℚ)), (1, 3)]) ∧
    runSampler (uniform_sampler 42) [(1, 1), (1, 3)] =
      runSampler (uniform_sampler 42) [(1, 1), (1, 3)] :=
  ⟨rfl, rfl, uniform_sampler_reproducible 42 42 [(1, 1), (1, 3)] [(1, 1), (1, 3)] rfl rfl⟩

/-- C9: `selection_sampler(result)` ignores its `(p0, p1)` input and always
yields exactly `(result, result, 1)`, leaving its state unchanged. -/
theorem selection_sampler_spec (result : ℕ) (p0 p1 : ℚ) :
    (selection_sampler result).send (p0, p1) = ((result, result, 1), selection_sampler result) :=
  rfl

/-- Helper for C10: the recorded outcome history of a driven measurement
depends only on the sampler state and the history already recorded, not on
the gate's qubit name or timestamp. -/
theorem runMeasurement_congr (peeks : List (ℚ × ℚ)) :
    ∀ m1 m2 : Measurement, m1.sampler = m2.sampler →
      m1.measurements = m2.measurements →
      (runMeasurement m1 peeks).measurements = (runMeasurement m2 peeks).measurements := by
  induction peeks with
  | nil => intro m1 m2 _ hm; exact hm
  | cons p ps ih =>
      intro m1 m2 hs hm
      apply ih
      · simp [Measurement.apply_to, hs]
      · simp [Measurement.apply_to, hs, hm]

/-- C10: `Measurement(bit, time, None)` installs `uniform_sampler()` with
the default seed 42, so two measurements constructed without a sampler and
driven through the same sequence of `(p0, p1)` peeks record identical
declared-outcome histories. -/
theorem measurement_default_sampler_reproducible (b1 b2 : String) (s1 s2 : ℚ)
    (peeks : List (ℚ × ℚ)) :
    (Measurement.init b1 s1 none).sampler = Sampler.uniform (randomStateStream 42) 0 ∧
    (runMeasurement (Measurement.init b1 s1 none) peeks).measurements =
      (runMeasurement (Measurement.init b2 s2 none) peeks).measurements :=
  ⟨rfl, runMeasurement_congr peeks _ _ rfl rfl⟩

/-- C6 (counterexample): adding a gate with the unknown kind identifier
`"toffoli"` fails with a `KeyError` from the registry lookup, which is not
a `ConfigurationError`; no `ConfigurationError` class exists in the
source, so the claim as stated is false. -/
theorem add_gate_unknown_kind_not_configurationError :
    (Circuit.init).add_gate_by_name "toffoli" (.oneQ "q" 0) =
      .error (.keyError "toffoli") ∧
    (Except.error (PyError.keyError "toffoli") :
      Except PyError Circuit) ≠ .error .configurationError := by
  constructor
  · rfl
  · intro h
    exact absurd (Except.error.inj h) (by decide)

/-- C6 (amended): adding a gate with an operation-kind string identifier
that is not a key of the gate registry fails — with a `KeyError` raised by
the dictionary lookup `Circuit.gate_classes[gate_type]`. -/
theorem add_gate_unknown_kind_fails (c : Circuit) (gate_type : String) (args : GateArgs)
    (h : gate_type ∉ ["cphase", "hadamard", "amp_ph_damping", "measurement"]) :
    c.add_gate_by_name gate_type args = .error (.keyError gate_type) := by
  simp only [List.mem_cons, List.mem_singleton, not_or, List.not_mem_nil] at h
  obtain ⟨h1, h2, h3, h4, -⟩ := h
  have e1 : (gate_type == "cphase") = false := beq_eq_false_iff_ne.mpr h1
  have e2 : (gate_type == "hadamard") = false := beq_eq_false_iff_ne.mpr h2
  have e3 : (gate_type == "amp_ph_damping") = false := beq_eq_false_iff_ne.mpr h3
  have e4 : (gate_type == "measurement") = false := beq_eq_false_iff_ne.mpr h4
  unfold Circuit.add_gate_by_name gate_classes
  simp [List.lookup, e1, e2, e3, e4]

/-- Witness for the amended C6 at the concrete unknown identifier
`"toffoli"`. -/
theorem add_gate_unknown_kind_fails_witness :
    "toffoli" ∉ ["cphase", "hadamard", "amp_ph_damping", "measurement"] ∧
    (Circuit.init).add_gate_by_name "toffoli" (.oneQ "q" 0) =
      .error (.keyError "toffoli") :=
  ⟨by decide, add_gate_unknown_kind_fails Circuit.init "toffoli" (.oneQ "q" 0) (by decide)⟩

theorem foldl_append_flatMap (f : Qubit → List CGate) :
    ∀ (l : List Qubit) (s : List CGate),
      l.foldl (fun acc b => acc ++ f b) s = s ++ l.flatMap f := by
  intro l
  induction l with
  | nil => intro s; simp
  | cons b t ih => intro s; simp [ih, List.append_assoc]

theorem timeLe_trans (a b c : CGate) (hab : timeLe a b = true)
    (hbc : timeLe b c = true) : timeLe a c = true := by
  simp only [timeLe, decide_eq_true_eq] at *
  exact le_trans hab hbc

theorem timeLe_total (a b : CGate) : (timeLe a b || timeLe b a) = true := by
  simp only [timeLe, Bool.or_eq_true, decide_eq_true_eq]
  exact le_total a.time b.time

theorem ratdecLe_trans (a b c : ℚ) (hab : decide (a ≤ b) = true)
    (hbc : decide (b ≤ c) = true) : decide (a ≤ c) = true := by
  simp only [decide_eq_true_eq] at *
  exact le_trans hab hbc

theorem ratdecLe_total (a b : ℚ) : (decide (a ≤ b) || decide (b ≤ a)) = true := by
  simp only [Bool.or_eq_true, decide_eq_true_eq]
  exact le_total a b

theorem pairwise_time_mergeSort (gs : List CGate) :
    List.Pairwise (fun a b => a.time ≤ b.time) (gs.mergeSort timeLe) :=
  (List.sorted_mergeSort timeLe_trans timeLe_total gs).imp
    (fun h => by simpa [timeLe] using h)

theorem map_time_filter_mergeSort (p : CGate → Bool) (gs : List CGate) :
    ((gs.mergeSort timeLe).filter p).map CGate.time =
      ((gs.filter p).map CGate.time).mergeSort (fun x y => decide (x ≤ y)) := by
  refine List.eq_of_perm_of_sorted (r := (· ≤ · : ℚ → ℚ → Prop)) ?_ ?_ ?_
  · exact (((List.mergeSort_perm gs timeLe).filter p).map CGate.time).trans
      (List.mergeSort_perm _ _).symm
  · exact List.pairwise_map.mpr ((pairwise_time_mergeSort gs).filter p)
  · exact (List.sorted_mergeSort ratdecLe_trans ratdecLe_total _).imp
      (fun h => by simpa using h)

theorem getLastI_mem {α : Type} [Inhabited α] (l : List α) (h : l ≠ []) :
    l.getLastI ∈ l := by
  rw [List.getLastI_eq_getLast?, List.getLast?_eq_getLast l h]
  simp only [Option.iget_some]
  exact List.getLast_mem h

theorem getLastI_cons_cons {α : Type} [Inhabited α] (a b : α) (t : List α) :
    (a :: b :: t).getLastI = (b :: t).getLastI := by
  rw [List.getLastI_eq_getLast?, List.getLastI_eq_getLast?, List.getLast?_cons_cons]

theorem rel_getLastI {α : Type} [Inhabited α] {R : α → α → Prop}
    (hrefl : ∀ a : α, R a a) :
    ∀ (l : List α), List.Pairwise R l → ∀ g ∈ l, R g l.getLastI := by
  intro l
  induction l with
  | nil => simp
  | cons a t ih =>
      intro hp g hg
      rcases List.mem_cons.mp hg with rfl | hgt
      · cases t with
        | nil => exact hrefl g
        | cons b t2 =>
            rw [getLastI_cons_cons]
            exact List.rel_of_pairwise_cons hp (getLastI_mem (b :: t2) (by simp))
      · cases t with
        | nil => simp at hgt
        | cons b t2 =>
            rw [getLastI_cons_cons]
            exact ih hp.of_cons g hgt

theorem headI_map_time (l : List CGate) (h : l ≠ []) :
    (l.map CGate.time).headI = l.headI.time := by
  cases l with
  | nil => exact absurd rfl h
  | cons a t => rfl

theorem getLastI_map_time : ∀ (l : List CGate), l ≠ [] →
    (l.map CGate.time).getLastI = l.getLastI.time
  | [_], _ => rfl
  | g :: g2 :: t, _ => by
      rw [List.map_cons, List.map_cons, getLastI_cons_cons, ← List.map_cons,
        getLastI_cons_cons]
      exact getLastI_map_time (g2 :: t) (by simp)

theorem zip_tail_map_time (l : List CGate) :
    (l.map CGate.time).zip (l.map CGate.time).tail
      = (l.zip l.tail).map (fun p => (p.1.time, p.2.time)) := by
  rw [← List.map_tail, List.zip_map]
  rfl

theorem waitingGatesFor_eq_claimChannelsFor (b : Qubit) (tmin tmax : ℚ)
    (gs : List CGate) :
    waitingGatesFor b tmin tmax (gs.mergeSort timeLe) = claimChannelsFor b tmin tmax gs := by
  unfold waitingGatesFor claimChannelsFor
  rw [← map_time_filter_mergeSort (inWindow b tmin tmax) gs]
  set gts := (gs.mergeSort timeLe).filter (inWindow b tmin tmax) with hgts
  by_cases hempty : gts = []
  · rw [hempty]
    simp [add_comm tmax tmin]
  · have hie : gts.isEmpty = false := by simp [List.isEmpty_iff, hempty]
    have hie2 : (gts.map CGate.time).isEmpty = false := by
      simp [List.isEmpty_iff, hempty]
    simp only [hie, hie2, Bool.false_eq_true, if_false]
    rw [headI_map_time gts hempty, getLastI_map_time gts hempty, zip_tail_map_time,
      List.map_map]
    rw [add_comm gts.headI.time tmin]
    rfl

/-- C4: `add_waiting_gates` (1) is a silent no-op on a circuit with no
operations when no bound of the window is given explicitly; (2) defaults an
omitted window bound to the minimum/maximum timestamp over all current
operations; (3) with an explicit window appends, for each qubit in order,
exactly the idle-interval channels described by the claim
(`claimChannelsFor`): the whole-window channel for a qubit with no
operation inside `[tmin, tmax]`, the initial/final-gap channels guarded by
the `1e-6` threshold, and one channel per consecutive pair of the qubit's
in-window operations, each centered at the corresponding midpoint with
duration equal to the corresponding gap. -/
theorem add_waiting_gates_spec :
    (∀ (title : String) (qs : List Qubit),
      Circuit.add_waiting_gates ⟨title, qs, []⟩ none none = ⟨title, qs, []⟩) ∧
    (∀ (title : String) (qs : List Qubit) (g : CGate) (gateRest : List CGate)
        (tmin0 tmax0 : Option ℚ),
      ∃ m M, m ∈ (g :: gateRest).map CGate.time ∧ M ∈ (g :: gateRest).map CGate.time ∧
        (∀ t ∈ (g :: gateRest).map CGate.time, m ≤ t ∧ t ≤ M) ∧
        Circuit.add_waiting_gates ⟨title, qs, g :: gateRest⟩ tmin0 tmax0 =
          Circuit.add_waiting_gates ⟨title, qs, g :: gateRest⟩
            (some (tmin0.getD m)) (some (tmax0.getD M))) ∧
    (∀ (c : Circuit) (tmin tmax : ℚ),
      (c.add_waiting_gates (some tmin) (some tmax)).gates =
        c.gates ++ c.qubits.flatMap (fun b => claimChannelsFor b tmin tmax c.gates)) := by
  refine ⟨?_, ?_, ?_⟩
  · intro title qs
    simp [Circuit.add_waiting_gates]
  · intro title qs g gateRest tmin0 tmax0
    set gl := g :: gateRest with hgl
    have hne : gl ≠ [] := by simp [hgl]
    have hsne : gl.mergeSort timeLe ≠ [] := by
      intro h
      exact hne (List.Perm.eq_nil ((List.mergeSort_perm gl timeLe).symm.trans (h ▸ List.Perm.refl _)))
    have hmem : ∀ x ∈ gl.mergeSort timeLe, x ∈ gl :=
      fun x hx => (List.mergeSort_perm gl timeLe).mem_iff.mp hx
    refine ⟨(gl.mergeSort timeLe).headI.time, (gl.mergeSort timeLe).getLastI.time, ?_, ?_, ?_, ?_⟩
    · apply List.mem_map_of_mem
      apply hmem
      cases h : gl.mergeSort timeLe with
      | nil => exact absurd h hsne
      | cons a t => simp
    · exact List.mem_map_of_mem _ (hmem _ (getLastI_mem _ hsne))
    · intro t ht
      obtain ⟨x, hx, rfl⟩ := List.mem_map.mp ht
      have hxs : x ∈ gl.mergeSort timeLe := (List.mergeSort_perm gl timeLe).mem_iff.mpr hx
      constructor
      · cases h : gl.mergeSort timeLe with
        | nil => exact absurd h hsne
        | cons a s =>
            rw [h] at hxs
            rcases List.mem_cons.mp hxs with rfl | hxt
            · simp
            · have hp := pairwise_time_mergeSort gl
              rw [h] at hp
              simpa using List.rel_of_pairwise_cons hp hxt
      · exact rel_getLastI (R := fun a b : CGate => a.time ≤ b.time)
          (fun a => le_refl a.time) _ (pairwise_time_mergeSort gl) x hxs
    · have hie : (gl.mergeSort timeLe).isEmpty = false := by
        simpa [List.isEmpty_iff] using hsne
      simp [Circuit.add_waiting_gates, hie]
  · intro c tmin tmax
    simp only [Circuit.add_waiting_gates, Option.isNone_some, Bool.false_eq_true, or_self,
      and_false, if_false]
    rw [foldl_append_flatMap]
    exact congrArg (c.gates ++ ·) (congrArg _ (funext fun b =>
      waitingGatesFor_eq_claimChannelsFor b tmin tmax c.gates))

/-- Closed instance of C4's no-op conjunct, applying the theorem at a
concrete empty circuit. -/
theorem add_waiting_gates_spec_witness :
    Circuit.add_waiting_gates ⟨"t", [], []⟩ none none = ⟨"t", [], []⟩ :=
  add_waiting_gates_spec.1 "t" []

theorem mem_ite_singleton {α : Type} {c : Prop} [Decidable c] {x a : α}
    (h : a ∈ if c then [x] else []) : a = x := by
  split at h
  · simpa using h
  · simp at h

theorem pairsOf_headI_le (ts : List ℚ) (hs : List.Pairwise (· ≤ ·) ts) :
    ∀ p ∈ pairsOf ts, ts.headI ≤ p.1 ∧ p.2 ≤ ts.getLastI := by
  induction ts with
  | nil => simp [pairsOf]
  | cons t rest ih =>
      intro p hp
      cases rest with
      | nil => simp [pairsOf] at hp
      | cons u rest2 =>
          rw [show pairsOf (t :: u :: rest2) = (t, u) :: pairsOf (u :: rest2) from rfl] at hp
          have htu : t ≤ u := List.rel_of_pairwise_cons hs (by simp)
          rcases List.mem_cons.mp hp with rfl | hp2
          · refine ⟨le_refl t, ?_⟩
            rw [getLastI_cons_cons]
            exact rel_getLastI (R := (· ≤ · : ℚ → ℚ → Prop)) (fun a => le_refl a)
              (u :: rest2) hs.of_cons u (by simp)
          · have h2 := ih hs.of_cons p hp2
            refine ⟨le_trans htu h2.1, ?_⟩
            rw [getLastI_cons_cons]
            exact h2.2

theorem pairwise_pairsOf (ts : List ℚ) (hs : List.Pairwise (· ≤ ·) ts) :
    List.Pairwise (fun p q : ℚ × ℚ => p.2 ≤ q.1) (pairsOf ts) := by
  induction ts with
  | nil => simp [pairsOf]
  | cons t rest ih =>
      cases rest with
      | nil => simp [pairsOf]
      | cons u rest2 =>
          rw [show pairsOf (t :: u :: rest2) = (t, u) :: pairsOf (u :: rest2) from rfl]
          refine List.Pairwise.cons ?_ (ih hs.of_cons)
          intro q hq
          exact (pairsOf_headI_le (u :: rest2) hs.of_cons q hq).1

theorem disjRel_not_overlaps {I J : ℚ × ℚ} (h : disjRel I J) : ¬ overlaps I J := by
  rcases h with h | h
  · exact not_lt.mpr (le_trans (min_le_left _ _) (le_trans h (le_max_right _ _)))
  · exact not_lt.mpr (le_trans (min_le_right _ _) (le_trans h (le_max_left _ _)))

theorem headI_mem {α : Type} [Inhabited α] (l : List α) (h : l ≠ []) :
    l.headI ∈ l := by
  cases l with
  | nil => exact absurd rfl h
  | cons a t => simp

theorem pairwise_disj_channelIntervals (tmin tmax : ℚ) (ts : List ℚ)
    (hs : List.Pairwise (· ≤ ·) ts) :
    List.Pairwise disjRel (channelIntervals tmin tmax ts) := by
  unfold channelIntervals
  by_cases hts : ts = []
  · simp [hts]
  · have hie : ts.isEmpty = false := by simp [List.isEmpty_iff, hts]
    simp only [hie, Bool.false_eq_true, if_false]
    have hhl : ts.headI ≤ ts.getLastI :=
      rel_getLastI (R := (· ≤ · : ℚ → ℚ → Prop)) (fun a => le_refl a) ts hs
        ts.headI (headI_mem ts hts)
    refine (List.pairwise_append).mpr
      ⟨(List.pairwise_append).mpr ⟨?_, ?_, ?_⟩, ?_, ?_⟩
    · split <;> simp
    · split <;> simp
    · intro a ha bb hbb
      rw [mem_ite_singleton ha, mem_ite_singleton hbb]
      exact Or.inl hhl
    · exact (pairwise_pairsOf ts hs).imp (fun h => Or.inl h)
    · intro a ha p hp
      rcases List.mem_append.mp ha with haf | hab
      · rw [mem_ite_singleton haf]
        exact Or.inl (pairsOf_headI_le ts hs p hp).1
      · rw [mem_ite_singleton hab]
        exact Or.inr (pairsOf_headI_le ts hs p hp).2

theorem countP_covers_le_one (x y : ℚ) (hxy : x < y) :
    ∀ (L : List (ℚ × ℚ)), List.Pairwise disjRel L →
      L.countP (fun I => decide (covers I (x, y))) ≤ 1 := by
  intro L
  induction L with
  | nil => intro _; simp
  | cons I L ih =>
      intro hp
      rw [List.countP_cons]
      by_cases hc : covers I (x, y)
      · have h0 : L.countP (fun J => decide (covers J (x, y))) = 0 := by
          rw [List.countP_eq_zero]
          intro J hJ
          simp only [decide_eq_true_eq]
          intro hcJ
          rcases List.rel_of_pairwise_cons hp hJ with h | h
          · exact absurd hxy (not_lt.mpr (le_trans hc.2 (le_trans h hcJ.1)))
          · exact absurd hxy (not_lt.mpr (le_trans hcJ.2 (le_trans h hc.1)))
        rw [h0]
        simp [hc]
      · have hd : decide (covers I (x, y)) = false := decide_eq_false hc
        rw [hd]
        simpa using ih hp.of_cons

theorem pairsOf_append_singleton : ∀ (l : List ℚ), l ≠ [] → ∀ x : ℚ,
    pairsOf (l ++ [x]) = pairsOf l ++ [(l.getLastI, x)]
  | [_], _, _ => rfl
  | a :: b :: t, _, x => by
      have ih := pairsOf_append_singleton (b :: t) (by simp) x
      show (a, b) :: pairsOf ((b :: t) ++ [x])
          = ((a, b) :: pairsOf (b :: t)) ++ [((a :: b :: t).getLastI, x)]
      rw [ih, getLastI_cons_cons]
      simp

theorem channelIntervals_gap (tmin tmax : ℚ) (ts : List ℚ)
    (hs : List.Pairwise (· ≤ ·) ts) :
    ∀ gap ∈ gapsOf tmin tmax ts, gap.2 - gap.1 ≤ idleEps ∨
      (channelIntervals tmin tmax ts).countP (fun I => decide (covers I gap)) = 1 := by
  intro gap hgap
  by_cases hsmall : gap.2 - gap.1 ≤ idleEps
  · exact Or.inl hsmall
  right
  have heps : (0 : ℚ) < idleEps := by norm_num [idleEps]
  have hlt : gap.1 < gap.2 := by
    have := not_le.mp hsmall
    linarith
  have hmem : gap ∈ channelIntervals tmin tmax ts := by
    unfold channelIntervals
    cases hts : ts with
    | nil =>
        rw [hts] at hgap
        simp only [gapsOf, List.nil_append] at hgap
        rw [show pairsOf [tmin, tmax] = [(tmin, tmax)] from rfl] at hgap
        simpa using hgap
    | cons t rest =>
        have htsne : ts ≠ [] := by rw [hts]; simp
        have hie : ts.isEmpty = false := by simp [List.isEmpty_iff, htsne]
        rw [← hts]
        simp only [hie, Bool.false_eq_true, if_false]
        have hgap2 : gap ∈ (tmin, ts.headI) :: (pairsOf ts ++ [(ts.getLastI, tmax)]) := by
          have : gapsOf tmin tmax ts
              = (tmin, ts.headI) :: (pairsOf ts ++ [(ts.getLastI, tmax)]) := by
            unfold gapsOf
            rw [show (tmin :: (ts ++ [tmax])) = (tmin :: ts) ++ [tmax] from rfl,
              pairsOf_append_singleton (tmin :: ts) (by simp) tmax]
            rw [hts]
            rw [show pairsOf (tmin :: t :: rest) = (tmin, t) :: pairsOf (t :: rest) from rfl]
            rw [show (t :: rest).headI = t from rfl, getLastI_cons_cons]
            simp [hts]
          rw [← this]
          exact hgap
        rcases List.mem_cons.mp hgap2 with rfl | hgap3
        · have hcond : ts.headI - tmin > idleEps := by
            simpa using not_le.mp hsmall
          rw [if_pos hcond]
          simp
        · rcases List.mem_append.mp hgap3 with hmid | hlast
          · exact List.mem_append_right _ hmid
          · have hgl : gap = (ts.getLastI, tmax) := by simpa using hlast
            subst hgl
            have hcond : tmax - ts.getLastI > idleEps := by
              simpa using not_le.mp hsmall
            rw [if_pos hcond]
            exact List.mem_append_left _ (List.mem_append_right _ (by simp))
  have hge : 1 ≤ (channelIntervals tmin tmax ts).countP (fun I => decide (covers I gap)) := by
    refine Nat.succ_le_of_lt (List.countP_pos_iff.mpr ⟨gap, hmem, ?_⟩)
    simp [covers]
  have hle := countP_covers_le_one gap.1 gap.2 hlt _
    (pairwise_disj_channelIntervals tmin tmax ts hs)
  exact le_antisymm hle hge

theorem mem_waitingGatesFor_involved (b : Qubit) (tmin tmax : ℚ) (ag : List CGate) :
    ∀ g ∈ waitingGatesFor b tmin tmax ag, g.involved_qubits = [b.name] := by
  intro g hg
  simp only [waitingGatesFor] at hg
  split at hg
  · rw [List.mem_singleton.mp hg]
    rfl
  · rcases List.mem_append.mp hg with h1 | h2
    · rcases List.mem_append.mp h1 with hf | hb2
      · rw [mem_ite_singleton hf]; rfl
      · rw [mem_ite_singleton hb2]; rfl
    · obtain ⟨p, -, rfl⟩ := List.mem_map.mp h2
      rfl

theorem involves_qubit_of_single (g : CGate) (n m : String)
    (hinv : g.involved_qubits = [n]) : g.involves_qubit m = decide (m = n) := by
  simp [CGate.involves_qubit, hinv, List.contains_cons]

theorem flatMap_filter_involves (bq : Qubit) (tmin tmax : ℚ) (ag : List CGate) :
    ∀ (qs : List Qubit), (qs.map Qubit.name).Nodup → bq ∈ qs →
      (qs.flatMap (fun q => waitingGatesFor q tmin tmax ag)).filter
          (fun g => g.involves_qubit bq.name)
        = waitingGatesFor bq tmin tmax ag := by
  intro qs
  induction qs with
  | nil => simp
  | cons q rest ih =>
      intro hnd hmem
      rw [List.map_cons, List.nodup_cons] at hnd
      obtain ⟨hq, hrest⟩ := hnd
      rw [List.flatMap_cons, List.filter_append]
      by_cases hqb : q = bq
      · subst hqb
        have hall : (waitingGatesFor q tmin tmax ag).filter
            (fun g => g.involves_qubit q.name) = waitingGatesFor q tmin tmax ag := by
          rw [List.filter_eq_self]
          intro g hg
          rw [involves_qubit_of_single g q.name q.name
            (mem_waitingGatesFor_involved q tmin tmax ag g hg)]
          simp
        have hrest0 : (rest.flatMap (fun q2 => waitingGatesFor q2 tmin tmax ag)).filter
            (fun g => g.involves_qubit q.name) = [] := by
          rw [List.filter_eq_nil_iff]
          intro g hg
          obtain ⟨q2, hq2, hgq2⟩ := List.mem_flatMap.mp hg
          rw [involves_qubit_of_single g q2.name q.name
            (mem_waitingGatesFor_involved q2 tmin tmax ag g hgq2)]
          simp only [decide_eq_true_eq]
          intro he
          exact hq (he ▸ List.mem_map_of_mem Qubit.name hq2)
        rw [hall, hrest0, List.append_nil]
      · have hbrest : bq ∈ rest := by
          rcases List.mem_cons.mp hmem with h | h
          · exact absurd h.symm hqb
          · exact h
        have hqname : bq.name ≠ q.name := by
          intro he
          exact hq (he ▸ List.mem_map_of_mem Qubit.name hbrest)
        have hhead0 : (waitingGatesFor q tmin tmax ag).filter
            (fun g => g.involves_qubit bq.name) = [] := by
          rw [List.filter_eq_nil_iff]
          intro g hg
          rw [involves_qubit_of_single g q.name bq.name
            (mem_waitingGatesFor_involved q tmin tmax ag g hg)]
          simp only [decide_eq_true_eq]
          exact hqname
        rw [hhead0, List.nil_append]
        exact ih hrest hbrest

theorem intervalOf_AmpPhDamp (nm : String) (m d u v : ℚ) :
    intervalOf (AmpPhDamp nm m d u v) = (m - d / 2, m + d / 2) := rfl

theorem map_intervalOf_waitingGatesFor (b : Qubit) (tmin tmax : ℚ) (ag : List CGate) :
    (waitingGatesFor b tmin tmax ag).map intervalOf
      = channelIntervals tmin tmax ((ag.filter (inWindow b tmin tmax)).map CGate.time) := by
  unfold waitingGatesFor channelIntervals
  set gts := ag.filter (inWindow b tmin tmax) with hgts
  by_cases hempty : gts = []
  · simp only [hempty, List.isEmpty_nil, if_true, List.map_nil, List.map_cons,
      intervalOf_AmpPhDamp]
    rw [show ((tmax + tmin) / 2 - (tmax - tmin) / 2 : ℚ) = tmin by ring,
      show ((tmax + tmin) / 2 + (tmax - tmin) / 2 : ℚ) = tmax by ring]
  · have hie : gts.isEmpty = false := by simp [List.isEmpty_iff, hempty]
    have hie2 : (gts.map CGate.time).isEmpty = false := by
      simp [List.isEmpty_iff, hempty]
    simp only [hie, hie2, Bool.false_eq_true, if_false]
    rw [headI_map_time gts hempty, getLastI_map_time gts hempty]
    rw [List.map_append, List.map_append]
    congr 1
    · congr 1
      · split
        · simp only [List.map_cons, List.map_nil, intervalOf_AmpPhDamp]
          rw [show ((gts.headI.time + tmin) / 2 - (gts.headI.time - tmin) / 2 : ℚ)
              = tmin by ring,
            show ((gts.headI.time + tmin) / 2 + (gts.headI.time - tmin) / 2 : ℚ)
              = gts.headI.time by ring]
        · rfl
      · split
        · simp only [List.map_cons, List.map_nil, intervalOf_AmpPhDamp]
          rw [show ((gts.getLastI.time + tmax) / 2 - (tmax - gts.getLastI.time) / 2 : ℚ)
              = gts.getLastI.time by ring,
            show ((gts.getLastI.time + tmax) / 2 + (tmax - gts.getLastI.time) / 2 : ℚ)
              = tmax by ring]
        · rfl
    · rw [List.map_map]
      unfold pairsOf
      rw [zip_tail_map_time]
      apply List.map_congr_left
      intro p _
      simp only [Function.comp_apply, intervalOf_AmpPhDamp]
      rw [show ((p.1.time + p.2.time) / 2 - (p.2.time - p.1.time) / 2 : ℚ)
          = p.1.time by ring,
        show ((p.1.time + p.2.time) / 2 + (p.2.time - p.1.time) / 2 : ℚ)
          = p.2.time by ring]

/-- C5: after idle-interval synthesis over an explicit window
`[tmin, tmax]` on a circuit whose qubit names are distinct, for every qubit
of the circuit and every temporally adjacent pair among that qubit's
in-window operation timestamps (window boundaries included), the gap is at
most `1e-6` or is covered by exactly one synthesized decoherence channel
for that qubit, and no two synthesized channels for the same qubit overlap
(share an interior point).  The synthesized channels are the gates appended
beyond the original gate list. -/
theorem add_waiting_gates_no_idle_gap (c : Circuit) (tmin tmax : ℚ)
    (hw : tmin ≤ tmax) (hnd : (c.qubits.map Qubit.name).Nodup)
    (b : Qubit) (hb : b ∈ c.qubits) :
    (∀ gap ∈ gapsOf tmin tmax
        (((c.gates.filter (inWindow b tmin tmax)).map CGate.time).mergeSort
          (fun x y => decide (x ≤ y))),
      gap.2 - gap.1 ≤ idleEps ∨
        ((((c.add_waiting_gates (some tmin) (some tmax)).gates.drop
              c.gates.length).filter (fun g => g.involves_qubit b.name)).countP
          (fun g => decide (covers (intervalOf g) gap))) = 1) ∧
    List.Pairwise (fun g1 g2 => ¬ overlaps (intervalOf g1) (intervalOf g2))
      (((c.add_waiting_gates (some tmin) (some tmax)).gates.drop
          c.gates.length).filter (fun g => g.involves_qubit b.name)) := by
  have hgates : (c.add_waiting_gates (some tmin) (some tmax)).gates
      = c.gates ++ c.qubits.flatMap
          (fun q => waitingGatesFor q tmin tmax (c.gates.mergeSort timeLe)) := by
    simp only [Circuit.add_waiting_gates, Option.isNone_some, Bool.false_eq_true, or_self,
      and_false, if_false]
    rw [foldl_append_flatMap]
    rfl
  have hmine : ((c.add_waiting_gates (some tmin) (some tmax)).gates.drop
        c.gates.length).filter (fun g => g.involves_qubit b.name)
      = waitingGatesFor b tmin tmax (c.gates.mergeSort timeLe) := by
    rw [hgates, List.drop_left]
    exact flatMap_filter_involves b tmin tmax _ c.qubits hnd hb
  have hts : ((c.gates.mergeSort timeLe).filter (inWindow b tmin tmax)).map CGate.time
      = ((c.gates.filter (inWindow b tmin tmax)).map CGate.time).mergeSort
          (fun x y => decide (x ≤ y)) := map_time_filter_mergeSort _ _
  have hmap : (waitingGatesFor b tmin tmax (c.gates.mergeSort timeLe)).map intervalOf
      = channelIntervals tmin tmax
          (((c.gates.filter (inWindow b tmin tmax)).map CGate.time).mergeSort
            (fun x y => decide (x ≤ y))) := by
    rw [map_intervalOf_waitingGatesFor, hts]
  have hsorted : List.Pairwise (· ≤ · : ℚ → ℚ → Prop)
      (((c.gates.filter (inWindow b tmin tmax)).map CGate.time).mergeSort
        (fun x y => decide (x ≤ y))) :=
    (List.sorted_mergeSort ratdecLe_trans ratdecLe_total _).imp
      (fun h => by simpa using h)
  constructor
  · intro gap hgap
    rcases channelIntervals_gap tmin tmax _ hsorted gap hgap with h | h
    · exact Or.inl h
    · right
      rw [hmine]
      have hcp := List.countP_map (fun I => decide (covers I gap)) intervalOf
        (waitingGatesFor b tmin tmax (c.gates.mergeSort timeLe))
      rw [hmap] at hcp
      exact hcp.symm.trans h
  · rw [hmine]
    have hdisj := pairwise_disj_channelIntervals tmin tmax _ hsorted
    rw [← hmap] at hdisj
    exact (List.pairwise_map.mp hdisj).imp (fun h => disjRel_not_overlaps h)

/-- Witness for C5: the concrete one-qubit circuit `exCircuit` inside the
window `[0, 20]`. -/
theorem add_waiting_gates_no_idle_gap_witness :
    ((0 : ℚ) ≤ 20) ∧ ((exCircuit.qubits.map Qubit.name).Nodup) ∧
    exQubit ∈ exCircuit.qubits ∧
    ((∀ gap ∈ gapsOf 0 20
        (((exCircuit.gates.filter (inWindow exQubit 0 20)).map CGate.time).mergeSort
          (fun x y => decide (x ≤ y))),
      gap.2 - gap.1 ≤ idleEps ∨
        ((((exCircuit.add_waiting_gates (some 0) (some 20)).gates.drop
              exCircuit.gates.length).filter
            (fun g => g.involves_qubit exQubit.name)).countP
          (fun g => decide (covers (intervalOf g) gap))) = 1) ∧
    List.Pairwise (fun g1 g2 => ¬ overlaps (intervalOf g1) (intervalOf g2))
      (((exCircuit.add_waiting_gates (some 0) (some 20)).gates.drop
          exCircuit.gates.length).filter (fun g => g.involves_qubit exQubit.name))) :=
  ⟨by norm_num, by simp [exCircuit, exQubit], by simp [exCircuit],
    add_waiting_gates_no_idle_gap exCircuit 0 20 (by norm_num)
      (by simp [exCircuit, exQubit]) exQubit (by simp [exCircuit])⟩

theorem foldl_set_union_getD :
    ∀ (ps : List (ℕ × ℕ)) (d : List (Finset ℕ)), (∀ p ∈ ps, p.2 < d.length) →
      ∀ i : ℕ,
        (ps.foldl (fun d2 p => d2.set p.2 ((d2.getD p.2 ∅) ∪ {p.1})) d).getD i ∅
          = d.getD i ∅ ∪ ((ps.filter (fun p => p.2 == i)).map Prod.fst).toFinset := by
  intro ps
  induction ps with
  | nil => intro d _ i; simp
  | cons p ps ih =>
      intro d hb i
      rw [List.foldl_cons]
      have hlen : (d.set p.2 ((d.getD p.2 ∅) ∪ {p.1})).length = d.length :=
        List.length_set d p.2 _
      rw [ih _ (fun q hq => by rw [hlen]; exact hb q (List.mem_cons_of_mem p hq)) i]
      by_cases hpi : p.2 = i
      · subst hpi
        rw [List.getD_eq_getElem?_getD, List.getElem?_set_self (hb p (by simp)),
          Option.getD_some]
        have hbeq : (p.2 == p.2) = true := by simp
        simp only [List.filter_cons, hbeq, if_true, List.map_cons, List.toFinset_cons,
          Finset.insert_eq]
        rw [Finset.union_assoc]
      · rw [List.getD_eq_getElem?_getD, List.getElem?_set_ne (fun h => hpi h),
          ← List.getD_eq_getElem?_getD]
        have hbeq : (p.2 == i) = false := beq_eq_false_iff_ne.mpr hpi
        simp only [List.filter_cons, hbeq, Bool.false_eq_true, if_false]

theorem addChainDeps_length (d : List (Finset ℕ)) (gts : List ℕ) :
    (addChainDeps d gts).length = d.length := by
  unfold addChainDeps
  generalize (gts.zip gts.tail) = ps
  induction ps generalizing d with
  | nil => rfl
  | cons p ps ih => rw [List.foldl_cons, ih, List.length_set]

theorem mem_zip_tail {l : List ℕ} {p : ℕ × ℕ} (h : p ∈ l.zip l.tail) :
    p.1 ∈ l ∧ p.2 ∈ l := by
  have h2 := List.of_mem_zip h
  exact ⟨h2.1, List.mem_of_mem_tail h2.2⟩

theorem addChainDeps_getD (d : List (Finset ℕ)) (gts : List ℕ)
    (hb : ∀ x ∈ gts, x < d.length) (i j : ℕ) :
    j ∈ (addChainDeps d gts).getD i ∅ ↔
      j ∈ d.getD i ∅ ∨ (j, i) ∈ gts.zip gts.tail := by
  unfold addChainDeps
  rw [foldl_set_union_getD (gts.zip gts.tail) d
    (fun p hp => hb p.2 (mem_zip_tail hp).2) i]
  simp only [Finset.mem_union]
  apply or_congr_right
  constructor
  · intro hj
    simp only [List.mem_toFinset, List.mem_map] at hj
    obtain ⟨p, hp, rfl⟩ := hj
    obtain ⟨hpm, hpe⟩ := List.mem_filter.mp hp
    rcases p with ⟨pj, pi⟩
    have : pi = i := by simpa using hpe
    subst this
    exact hpm
  · intro hj
    simp only [List.mem_toFinset, List.mem_map]
    exact ⟨(j, i), List.mem_filter.mpr ⟨hj, by simp⟩, rfl⟩

theorem getD_map_empty : ∀ (ag : List (ℕ × CGate)) (i : ℕ),
    (ag.map (fun _ => (∅ : Finset ℕ))).getD i ∅ = ∅ := by
  intro ag
  induction ag with
  | nil => intro i; cases i <;> rfl
  | cons a t ih => intro i; cases i with
      | zero => rfl
      | succ n => exact ih n

theorem buildDeps_length (qs : List Qubit) (ag : List (ℕ × CGate)) :
    (buildDeps qs ag).length = ag.length := by
  unfold buildDeps
  suffices h : ∀ (qs2 : List Qubit) (d : List (Finset ℕ)),
      (qs2.foldl (fun d2 b => addChainDeps d2 (chainOf ag b.name)) d).length = d.length by
    rw [h]
    exact List.length_map ag _
  intro qs2
  induction qs2 with
  | nil => intro d; rfl
  | cons q rest ih => intro d; rw [List.foldl_cons, ih, addChainDeps_length]

theorem buildDeps_getD_mem (qs : List Qubit) (ag : List (ℕ × CGate))
    (hchain : ∀ (name : String) (x : ℕ), x ∈ chainOf ag name → x < ag.length)
    (i j : ℕ) :
    j ∈ (buildDeps qs ag).getD i ∅ ↔
      ∃ b ∈ qs, (j, i) ∈ (chainOf ag b.name).zip (chainOf ag b.name).tail := by
  unfold buildDeps
  suffices h : ∀ (qs2 : List Qubit) (d : List (Finset ℕ)), d.length = ag.length →
      (j ∈ (qs2.foldl (fun d2 b => addChainDeps d2 (chainOf ag b.name)) d).getD i ∅ ↔
        j ∈ d.getD i ∅ ∨
          ∃ b ∈ qs2, (j, i) ∈ (chainOf ag b.name).zip (chainOf ag b.name).tail) by
    rw [h qs _ (List.length_map ag _), getD_map_empty]
    simp
  intro qs2
  induction qs2 with
  | nil => intro d _; simp
  | cons q rest ih =>
      intro d hd
      rw [List.foldl_cons]
      rw [ih _ (by rw [addChainDeps_length]; exact hd)]
      rw [addChainDeps_getD d _ (fun x hx => hd ▸ hchain q.name x hx) i j]
      constructor
      · rintro ((h | h) | h)
        · exact Or.inl h
        · exact Or.inr ⟨q, by simp, h⟩
        · obtain ⟨b, hbm, hbp⟩ := h
          exact Or.inr ⟨b, List.mem_cons_of_mem q hbm, hbp⟩
      · rintro (h | ⟨b, hbm, hbp⟩)
        · exact Or.inl (Or.inl h)
        · rcases List.mem_cons.mp hbm with rfl | hbr
          · exact Or.inl (Or.inr hbp)
          · exact Or.inr ⟨b, hbr, hbp⟩

theorem mem_zip_tail_iff : ∀ (l : List ℕ) (j i : ℕ),
    (j, i) ∈ l.zip l.tail ↔ ∃ k : ℕ, l[k]? = some j ∧ l[k + 1]? = some i := by
  intro l
  induction l with
  | nil => intro j i; simp
  | cons a t ih =>
      intro j i
      cases t with
      | nil =>
          constructor
          · intro h; simp at h
          · rintro ⟨k, h1, h2⟩
            cases k with
            | zero => simp at h2
            | succ n => simp at h1
      | cons bb t2 =>
          rw [show (a :: bb :: t2).zip (a :: bb :: t2).tail
              = (a, bb) :: ((bb :: t2).zip t2) from rfl]
          constructor
          · intro h
            rcases List.mem_cons.mp h with heq | hmem
            · have h1 : j = a := congrArg Prod.fst heq
              have h2 : i = bb := congrArg Prod.snd heq
              subst h1; subst h2
              exact ⟨0, by simp, by simp⟩
            · obtain ⟨k, h1, h2⟩ := (ih j i).mp hmem
              exact ⟨k + 1, by simpa using h1, by simpa using h2⟩
          · rintro ⟨k, h1, h2⟩
            cases k with
            | zero =>
                have e1 : a = j := by simpa using h1
                have e2 : bb = i := by simpa using h2
                subst e1
                subst e2
                exact List.mem_cons_self _ _
            | succ n =>
                exact List.mem_cons_of_mem _
                  ((ih j i).mpr ⟨n, by simpa using h1, by simpa using h2⟩)

theorem chainOf_lt (ag : List (ℕ × CGate))
    (hag : ∀ p ∈ ag, p.1 < ag.length) (name : String) :
    ∀ x ∈ chainOf ag name, x < ag.length := by
  intro x hx
  obtain ⟨p, hp, rfl⟩ := List.mem_map.mp hx
  exact hag p (List.mem_filter.mp hp).1

theorem enum_fst_lt (l : List CGate) : ∀ p ∈ l.enum, p.1 < l.enum.length := by
  intro p hp
  rw [List.enum_length]
  have hsome := List.mem_enum_iff_getElem?.mp hp
  obtain ⟨h, -⟩ := List.getElem?_eq_some.mp hsome
  exact h

/-- C3: for every scheduler function and circuit, `Circuit.order`
(1) works on the timestamp-sorted gate list (a sorted permutation of the
circuit's gates), each gate getting a stable index via enumeration;
(2) collects as the delay-preferred set exactly the indices of measurement
gates in that enumeration; (3) passes a dependency map, indexed by gate
index, in which `j` is a predecessor of `i` exactly when `j` and `i` are
consecutive in the chronological chain of some circuit qubit's gates (the
later gate depends on the earlier); and (4) replaces the circuit's gate
collection with the gates in the order returned by the scheduler, the gate
at final position `n` being the sorted gate picked by the scheduler's
`n`-th index, relabeled with annotation `n`. -/
theorem circuit_order_spec (sched : List (Finset ℕ) → Finset ℕ → List ℕ) (c : Circuit) :
    let sorted := c.gates.mergeSort timeLe
    let meas := (sorted.enum.filter (fun p => p.2.is_measurement)).map Prod.fst
    let deps := buildDeps c.qubits sorted.enum
    let ord := sched deps meas.toFinset
    (sorted.Perm c.gates ∧ List.Pairwise (fun a b => a.time ≤ b.time) sorted) ∧
    (∀ i : ℕ, i ∈ meas ↔ ∃ g, sorted[i]? = some g ∧ g.is_measurement = true) ∧
    (deps.length = sorted.length ∧ ∀ i j : ℕ,
      j ∈ deps.getD i ∅ ↔ ∃ b ∈ c.qubits, ∃ k : ℕ,
        (chainOf sorted.enum b.name)[k]? = some j ∧
        (chainOf sorted.enum b.name)[k + 1]? = some i) ∧
    ((c.order sched).gates.length = ord.length ∧
      ∀ n : ℕ, n < ord.length →
        (c.order sched).gates.getD n default
          = { sorted.getD (ord.getD n 0) default with annotation := some (toString n) }) := by
  refine ⟨⟨List.mergeSort_perm c.gates timeLe, pairwise_time_mergeSort c.gates⟩, ?_, ⟨?_, ?_⟩, ⟨?_, ?_⟩⟩
  · intro i
    constructor
    · intro hi
      obtain ⟨p, hp, rfl⟩ := List.mem_map.mp hi
      obtain ⟨hpe, hpm⟩ := List.mem_filter.mp hp
      exact ⟨p.2, List.mem_enum_iff_getElem?.mp hpe, hpm⟩
    · rintro ⟨g, hg, hm⟩
      exact List.mem_map.mpr ⟨(i, g),
        List.mem_filter.mpr ⟨List.mem_enum_iff_getElem?.mpr hg, hm⟩, rfl⟩
  · rw [buildDeps_length, List.enum_length]
  · intro i j
    rw [buildDeps_getD_mem c.qubits _
      (fun name x hx => chainOf_lt _ (enum_fst_lt _) name x hx) i j]
    refine exists_congr (fun b => and_congr_right (fun _ => ?_))
    exact mem_zip_tail_iff (chainOf (c.gates.mergeSort timeLe).enum b.name) j i
  · simp only [Circuit.order]
    rw [List.length_map, List.enum_length]
  · intro n hn
    simp only [Circuit.order]
    have hn2 : n < ((sched (buildDeps c.qubits (c.gates.mergeSort timeLe).enum)
        (((c.gates.mergeSort timeLe).enum.filter
          (fun p => p.2.is_measurement)).map Prod.fst).toFinset).enum.map
        (fun p => { (c.gates.mergeSort timeLe).getD p.2 default with
          annotation := some (toString p.1) })).length := by
      rw [List.length_map, List.enum_length]
      exact hn
    rw [List.getD_eq_getElem _ _ hn2, List.getElem_map, List.getElem_enum,
      List.getD_eq_getElem _ _ hn]

end Quantumsim
